import Mathlib

/-!
Verification of the toaruOS desktop-shell client (`userspace/py/bin/panel.py`)
against its natural-language specification.  The Python source is embedded
shallowly: widget widths become `List Int` (the sentinel `-1` marking the one
flexible widget), the layout walk of `PanelWindow.draw` and the hit-test walk
of `PanelWindow.mouse_action` become structurally recursive functions, and the
stateful controllers (focus tracking, alt-tab, volume, application runner,
window lists, wallpaper animations) become explicit state-transition
functions.
-/

namespace PanelShell

/-! ### Widget layout (PanelWindow.draw, panel.py lines 398-404) -/

/-- Python `sum` over a list of widget widths. -/
def sumWidths : List Int → Int
  | [] => 0
  | w :: ws => w + sumWidths ws

/-- The horizontal extents `[left, right)` produced by the layout walk in
`PanelWindow.draw`: walking the widget list left to right, a fixed-width
widget (width `≠ -1`) gets `[offset, offset + width)` and the offset advances
by its width; the flexible widget (sentinel width `-1`) gets
`[offset, total - sumWidths rest)` where `rest` are the widgets after it, and
the offset advances to that right edge. -/
def layoutExtents (total : Int) : Int → List Int → List (Int × Int)
  | _, [] => []
  | offset, w :: ws =>
    let right : Int := if w = -1 then total - sumWidths ws else offset + w
    (offset, right) :: layoutExtents total right ws

/-- The hit-test walk of `PanelWindow.mouse_action` (panel.py lines 423-432):
the same walk as `layoutExtents`, returning the index of the first widget
whose extent contains the pointer x-coordinate. -/
def hitTest (total x : Int) : Int → List Int → Option Nat
  | _, [] => none
  | offset, w :: ws =>
    let right : Int := if w = -1 then total - sumWidths ws else offset + w
    if offset ≤ x ∧ x < right then some 0
    else (hitTest total x right ws).map (· + 1)

/-- Number of flexible (sentinel `-1`) widths in a widget list. -/
def numFlex : List Int → Nat
  | [] => 0
  | w :: ws => (if w = -1 then 1 else 0) + numFlex ws

/-- Sum of the fixed (non-sentinel) widths of a widget list. -/
def sumFixed : List Int → Int
  | [] => 0
  | w :: ws => (if w = -1 then 0 else w) + sumFixed ws

/-- First index in an extents list whose interval `[left, right)` contains
`x`; used to characterise `hitTest` against the drawn extents. -/
def firstContaining (x : Int) : List (Int × Int) → Option Nat
  | [] => none
  | p :: ps =>
    if p.1 ≤ x ∧ x < p.2 then some 0
    else (firstContaining x ps).map (· + 1)

theorem numFlex_eq_zero_forall :
    ∀ (ws : List Int), numFlex ws = 0 → ∀ w ∈ ws, w ≠ -1 := by
  intro ws
  induction ws with
  | nil => simp
  | cons w ws ih =>
    intro h
    simp only [numFlex] at h
    rw [List.forall_mem_cons]
    refine ⟨fun hw => ?_, ih (by omega)⟩
    simp [hw] at h

theorem sumFixed_eq_sumWidths :
    ∀ (ws : List Int), (∀ w ∈ ws, w ≠ -1) → sumFixed ws = sumWidths ws := by
  intro ws h
  induction ws with
  | nil => rfl
  | cons w ws ih =>
    rw [List.forall_mem_cons] at h
    simp [sumFixed, sumWidths, h.1, ih h.2]

theorem sumWidths_nonneg :
    ∀ (ws : List Int), (∀ w ∈ ws, 0 ≤ w) → 0 ≤ sumWidths ws := by
  intro ws h
  induction ws with
  | nil => simp [sumWidths]
  | cons w ws ih =>
    rw [List.forall_mem_cons] at h
    have := ih h.2
    simp only [sumWidths]
    omega

theorem sumFixed_nonneg :
    ∀ (ws : List Int), (∀ w ∈ ws, w ≠ -1 → 0 ≤ w) → 0 ≤ sumFixed ws := by
  intro ws h
  induction ws with
  | nil => simp [sumFixed]
  | cons w ws ih =>
    rw [List.forall_mem_cons] at h
    have ht := ih h.2
    by_cases hw : w = -1
    · simp [sumFixed, hw]; omega
    · have := h.1 hw
      simp only [sumFixed, if_neg hw]
      omega

theorem length_layoutExtents (total : Int) :
    ∀ (offset : Int) (ws : List Int),
      (layoutExtents total offset ws).length = ws.length := by
  intro offset ws
  induction ws generalizing offset with
  | nil => simp [layoutExtents]
  | cons w ws ih => simp [layoutExtents, ih]

theorem layoutExtents_head (total offset : Int) (w : Int) (ws : List Int) :
    ((layoutExtents total offset (w :: ws)).getD 0 (0, 0)).1 = offset := by
  simp [layoutExtents]

theorem numFlex_cons_flex (ws : List Int) :
    numFlex (-1 :: ws) = 1 + numFlex ws := by
  simp [numFlex]

theorem numFlex_cons_fixed {w : Int} (hw : w ≠ -1) (ws : List Int) :
    numFlex (w :: ws) = numFlex ws := by
  simp [numFlex, hw]

theorem sumFixed_cons_flex (ws : List Int) :
    sumFixed (-1 :: ws) = sumFixed ws := by
  simp [sumFixed]

theorem sumFixed_cons_fixed {w : Int} (hw : w ≠ -1) (ws : List Int) :
    sumFixed (w :: ws) = w + sumFixed ws := by
  simp [sumFixed, hw]

theorem layoutExtents_cons_flex (total offset : Int) (ws : List Int) :
    layoutExtents total offset (-1 :: ws) =
      (offset, total - sumWidths ws) ::
        layoutExtents total (total - sumWidths ws) ws := by
  simp [layoutExtents]

theorem layoutExtents_cons_fixed (total offset : Int) {w : Int} (hw : w ≠ -1)
    (ws : List Int) :
    layoutExtents total offset (w :: ws) =
      (offset, offset + w) :: layoutExtents total (offset + w) ws := by
  simp [layoutExtents, hw]

theorem layout_mono (total : Int) :
    ∀ (ws : List Int) (offset : Int),
      (∀ w ∈ ws, w ≠ -1 → 0 ≤ w) →
      numFlex ws ≤ 1 →
      (numFlex ws = 1 → offset + sumFixed ws ≤ total) →
      (∀ p ∈ layoutExtents total offset ws, offset ≤ p.1 ∧ p.1 ≤ p.2) ∧
      List.Pairwise (fun p q : Int × Int => p.2 ≤ q.1)
        (layoutExtents total offset ws) := by
  intro ws
  induction ws with
  | nil => intro offset _ _ _; simp [layoutExtents]
  | cons w ws ih =>
    intro offset hnn hle htot
    rw [List.forall_mem_cons] at hnn
    obtain ⟨hw, hnn⟩ := hnn
    by_cases hflex : w = -1
    · subst hflex
      rw [numFlex_cons_flex] at hle htot
      rw [sumFixed_cons_flex] at htot
      have h0 : numFlex ws = 0 := by omega
      have hne := numFlex_eq_zero_forall ws h0
      have hsum := sumFixed_eq_sumWidths ws hne
      have hloc : offset + sumWidths ws ≤ total := by
        have h1 := htot (by omega)
        omega
      obtain ⟨ihm, ihp⟩ := ih (total - sumWidths ws) hnn (by omega)
        (fun h => absurd h (by omega))
      rw [layoutExtents_cons_flex]
      constructor
      · rw [List.forall_mem_cons]
        refine ⟨⟨le_refl _, by omega⟩, fun p hp => ?_⟩
        have := ihm p hp
        constructor <;> omega
      · rw [List.pairwise_cons]
        exact ⟨fun q hq => (ihm q hq).1, ihp⟩
    · have hw0 : 0 ≤ w := hw hflex
      rw [numFlex_cons_fixed hflex] at hle htot
      rw [sumFixed_cons_fixed hflex] at htot
      have hsnn : 0 ≤ sumFixed ws := sumFixed_nonneg ws hnn
      obtain ⟨ihm, ihp⟩ := ih (offset + w) hnn hle
        (fun h1 => by have h2 := htot h1; omega)
      rw [layoutExtents_cons_fixed total offset hflex]
      constructor
      · rw [List.forall_mem_cons]
        refine ⟨⟨le_refl _, by omega⟩, fun p hp => ?_⟩
        have := ihm p hp
        constructor <;> omega
      · rw [List.pairwise_cons]
        exact ⟨fun q hq => (ihm q hq).1, ihp⟩

theorem layout_cover_noflex (total : Int) :
    ∀ (ws : List Int) (offset : Int), (∀ w ∈ ws, 0 ≤ w) →
      ∀ x : Int,
        (∃ p ∈ layoutExtents total offset ws, p.1 ≤ x ∧ x < p.2) ↔
          offset ≤ x ∧ x < offset + sumWidths ws := by
  intro ws
  induction ws with
  | nil => intro offset _ x; simp [layoutExtents, sumWidths]
  | cons w ws ih =>
    intro offset hnn x
    rw [List.forall_mem_cons] at hnn
    obtain ⟨hw, hnn⟩ := hnn
    have hwne : ¬(w = -1) := by omega
    have hs : 0 ≤ sumWidths ws := sumWidths_nonneg ws hnn
    rw [layoutExtents_cons_fixed total offset hwne, List.exists_mem_cons_iff,
      ih (offset + w) hnn x]
    show ((offset ≤ x ∧ x < offset + w) ∨ _) ↔ _ ∧ x < offset + sumWidths (w :: ws)
    rw [show sumWidths (w :: ws) = w + sumWidths ws from rfl]
    constructor
    · rintro (h | h) <;> omega
    · intro h
      by_cases hx : x < offset + w
      · left; constructor <;> omega
      · right; constructor <;> omega

theorem layout_cover_oneflex (total : Int) :
    ∀ (ws : List Int) (offset : Int),
      (∀ w ∈ ws, w ≠ -1 → 0 ≤ w) → numFlex ws = 1 →
      offset + sumFixed ws ≤ total →
      ∀ x : Int,
        (∃ p ∈ layoutExtents total offset ws, p.1 ≤ x ∧ x < p.2) ↔
          offset ≤ x ∧ x < total := by
  intro ws
  induction ws with
  | nil => intro offset _ h; simp [numFlex] at h
  | cons w ws ih =>
    intro offset hnn hfx htot x
    rw [List.forall_mem_cons] at hnn
    obtain ⟨hw, hnn⟩ := hnn
    by_cases hflex : w = -1
    · subst hflex
      rw [numFlex_cons_flex] at hfx
      rw [sumFixed_cons_flex] at htot
      have h0 : numFlex ws = 0 := by omega
      have hne := numFlex_eq_zero_forall ws h0
      have hnn' : ∀ v ∈ ws, 0 ≤ v := fun v hv => hnn v hv (hne v hv)
      have hsum := sumFixed_eq_sumWidths ws hne
      have hs : 0 ≤ sumWidths ws := sumWidths_nonneg ws hnn'
      have hloc : offset + sumWidths ws ≤ total := by omega
      rw [layoutExtents_cons_flex, List.exists_mem_cons_iff,
        layout_cover_noflex total ws (total - sumWidths ws) hnn' x]
      constructor
      · rintro (h | h) <;> omega
      · intro h
        by_cases hx : x < total - sumWidths ws
        · left; exact ⟨h.1, hx⟩
        · right; constructor <;> omega
    · have hw0 : 0 ≤ w := hw hflex
      rw [numFlex_cons_fixed hflex] at hfx
      rw [sumFixed_cons_fixed hflex] at htot
      have hsnn : 0 ≤ sumFixed ws := sumFixed_nonneg ws hnn
      rw [layoutExtents_cons_fixed total offset hflex, List.exists_mem_cons_iff,
        ih (offset + w) hnn hfx (by omega) x]
      constructor
      · rintro (h | h) <;> omega
      · intro h
        by_cases hx : x < offset + w
        · left; exact ⟨h.1, hx⟩
        · right; constructor <;> omega

theorem layoutExtents_cons (total offset w : Int) (ws : List Int) :
    layoutExtents total offset (w :: ws) =
      (offset, if w = -1 then total - sumWidths ws else offset + w) ::
        layoutExtents total (if w = -1 then total - sumWidths ws else offset + w)
          ws := rfl

theorem layout_contiguous (total : Int) :
    ∀ (ws : List Int) (offset : Int) (i : Nat), i + 1 < ws.length →
      ((layoutExtents total offset ws).getD i (0, 0)).2 =
      ((layoutExtents total offset ws).getD (i + 1) (0, 0)).1 := by
  intro ws
  induction ws with
  | nil => intro offset i h; simp at h
  | cons w ws ih =>
    intro offset i h
    cases i with
    | zero =>
      cases ws with
      | nil => simp at h
      | cons w' ws' =>
        rw [layoutExtents_cons, List.getD_cons_zero, List.getD_cons_succ,
          layoutExtents_head]
    | succ i =>
      have h' : i + 1 < ws.length := by
        simp only [List.length_cons] at h; omega
      rw [layoutExtents_cons, List.getD_cons_succ, List.getD_cons_succ]
      exact ih _ i h'

theorem layout_extent_values (total : Int) :
    ∀ (ws : List Int) (offset : Int) (i : Nat), i < ws.length →
      (ws.getD i 0 ≠ -1 →
        ((layoutExtents total offset ws).getD i (0, 0)).2 =
        ((layoutExtents total offset ws).getD i (0, 0)).1 + ws.getD i 0) ∧
      (ws.getD i 0 = -1 →
        ((layoutExtents total offset ws).getD i (0, 0)).2 =
        total - sumWidths (ws.drop (i + 1))) := by
  intro ws
  induction ws with
  | nil => intro offset i h; simp at h
  | cons w ws ih =>
    intro offset i h
    cases i with
    | zero =>
      rw [layoutExtents_cons]
      constructor
      · intro hne
        rw [List.getD_cons_zero] at hne
        simp only [List.getD_cons_zero, if_neg hne]
      · intro heq
        rw [List.getD_cons_zero] at heq
        simp only [List.getD_cons_zero, if_pos heq, List.drop_succ_cons,
          List.drop_zero]
    | succ i =>
      have h' : i < ws.length := by
        simp only [List.length_cons] at h; omega
      rw [layoutExtents_cons]
      simp only [List.getD_cons_succ, List.drop_succ_cons]
      exact ih _ i h'

/-- Claim C1 (amended).  For a widget sequence containing exactly one
flexible-width widget (sentinel width `-1`), whose fixed widths are
nonnegative, and a total surface width at least the sum of the fixed widths,
the extents computed by the layout walk of `PanelWindow.draw` are contiguous
(each widget's right edge is the next widget's left edge), non-overlapping
(pairwise ordered), and cover exactly `[0, total)`; each fixed widget
occupies `[offset, offset + width)` and the flexible widget occupies
`[offset, total - sumWidths rest)` where `rest` are the widgets after it. -/
theorem layout_partition (total : Int) (ws : List Int)
    (hnn : ∀ w ∈ ws, w ≠ -1 → 0 ≤ w)
    (hflex : numFlex ws = 1)
    (htot : sumFixed ws ≤ total) :
    (layoutExtents total 0 ws).length = ws.length ∧
    (∀ i : Nat, i + 1 < ws.length →
      ((layoutExtents total 0 ws).getD i (0, 0)).2 =
      ((layoutExtents total 0 ws).getD (i + 1) (0, 0)).1) ∧
    List.Pairwise (fun p q : Int × Int => p.2 ≤ q.1) (layoutExtents total 0 ws) ∧
    (∀ x : Int,
      (∃ p ∈ layoutExtents total 0 ws, p.1 ≤ x ∧ x < p.2) ↔ 0 ≤ x ∧ x < total) ∧
    (∀ i : Nat, i < ws.length →
      (ws.getD i 0 ≠ -1 →
        ((layoutExtents total 0 ws).getD i (0, 0)).2 =
        ((layoutExtents total 0 ws).getD i (0, 0)).1 + ws.getD i 0) ∧
      (ws.getD i 0 = -1 →
        ((layoutExtents total 0 ws).getD i (0, 0)).2 =
        total - sumWidths (ws.drop (i + 1)))) :=
  ⟨length_layoutExtents total 0 ws,
    fun i hi => layout_contiguous total ws 0 i hi,
    (layout_mono total ws 0 hnn (by omega) (fun _ => by omega)).2,
    fun x => layout_cover_oneflex total ws 0 hnn hflex (by omega) x,
    fun i hi => layout_extent_values total ws 0 i hi⟩

/-- Claim C1, exactly as stated, is false on the code.  First conjunct: with a
single fixed widget of width 10 (so "at most one flexible widget" holds) and
total width 100, the point `x = 50` lies in `[0, 100)` but in no computed
extent, so the extents do not cover `[0, total)`.  Second conjunct: with
widgets `[10, -1, 10]` and total width 15, extent 0 is `[0, 10)` and extent 2
is `[5, 15)`, which overlap (both contain `x = 7`), so the extents are not
non-overlapping for every total surface width. -/
theorem layout_claim_as_stated_fails :
    (numFlex [(10 : Int)] ≤ 1 ∧
      (∀ p ∈ layoutExtents 100 0 [(10 : Int)], ¬(p.1 ≤ 50 ∧ 50 < p.2)) ∧
      (0 : Int) ≤ 50 ∧ (50 : Int) < 100) ∧
    (numFlex [(10 : Int), -1, 10] = 1 ∧
      (layoutExtents 15 0 [(10 : Int), -1, 10]).getD 0 (0, 0) = (0, 10) ∧
      (layoutExtents 15 0 [(10 : Int), -1, 10]).getD 2 (0, 0) = (5, 15) ∧
      ((0 : Int) ≤ 7 ∧ (7 : Int) < 10) ∧ ((5 : Int) ≤ 7 ∧ (7 : Int) < 15)) := by
  decide

/-- Witness for `layout_partition` at the concrete widget list
`[28, -1, 70]` with total width 200. -/
theorem layout_partition_spot :
    (∀ w ∈ [(28 : Int), -1, 70], w ≠ -1 → 0 ≤ w) ∧
    numFlex [(28 : Int), -1, 70] = 1 ∧
    sumFixed [(28 : Int), -1, 70] ≤ 200 ∧
    (∀ x : Int,
      (∃ p ∈ layoutExtents 200 0 [(28 : Int), -1, 70], p.1 ≤ x ∧ x < p.2) ↔
        0 ≤ x ∧ x < 200) :=
  ⟨by decide, by decide, by decide,
    (layout_partition 200 [28, -1, 70] (by decide) (by decide)
      (by decide)).2.2.2.1⟩

/-! ### Hit-testing (PanelWindow.mouse_action, panel.py lines 423-432) -/

theorem hitTest_eq_firstContaining (total x : Int) :
    ∀ (ws : List Int) (offset : Int),
      hitTest total x offset ws =
        firstContaining x (layoutExtents total offset ws) := by
  intro ws
  induction ws with
  | nil => intro offset; rfl
  | cons w ws ih =>
    intro offset
    rw [layoutExtents_cons]
    simp only [hitTest, firstContaining]
    by_cases h : offset ≤ x ∧ x < (if w = -1 then total - sumWidths ws else offset + w)
    · rw [if_pos h, if_pos h]
    · rw [if_neg h, if_neg h, ih]

theorem firstContaining_none_iff (x : Int) :
    ∀ ps : List (Int × Int),
      (firstContaining x ps = none ↔ ∀ p ∈ ps, ¬(p.1 ≤ x ∧ x < p.2)) := by
  intro ps
  induction ps with
  | nil => simp [firstContaining]
  | cons p ps ih =>
    simp only [firstContaining]
    by_cases h : p.1 ≤ x ∧ x < p.2
    · simp [h]
    · simp only [if_neg h, List.forall_mem_cons]
      cases hfc : firstContaining x ps with
      | none =>
        simp only [Option.map_none']
        exact ⟨fun _ => ⟨h, ih.mp hfc⟩, fun _ => trivial⟩
      | some k =>
        simp only [hfc, Option.map_some']
        constructor
        · intro hc; exact absurd hc (by simp)
        · intro hc
          rw [← ih] at hc
          simp [hfc] at hc

theorem firstContaining_some_iff (x : Int) :
    ∀ (ps : List (Int × Int)) (i : Nat),
      (firstContaining x ps = some i ↔
        i < ps.length ∧
        ((ps.getD i (0, 0)).1 ≤ x ∧ x < (ps.getD i (0, 0)).2) ∧
        ∀ j : Nat, j < i →
          ¬((ps.getD j (0, 0)).1 ≤ x ∧ x < (ps.getD j (0, 0)).2)) := by
  intro ps
  induction ps with
  | nil => intro i; simp [firstContaining]
  | cons p ps ih =>
    intro i
    simp only [firstContaining]
    by_cases h : p.1 ≤ x ∧ x < p.2
    · rw [if_pos h]
      cases i with
      | zero => simp [h]
      | succ i =>
        constructor
        · intro hc; exact absurd hc (by simp)
        · rintro ⟨_, _, hall⟩
          exact absurd h (by simpa using hall 0 (Nat.succ_pos i))
    · rw [if_neg h]
      cases i with
      | zero =>
        constructor
        · intro hc
          cases hfc : firstContaining x ps <;> rw [hfc] at hc <;> simp at hc
        · rintro ⟨_, hx, _⟩
          rw [List.getD_cons_zero] at hx
          exact absurd hx h
      | succ i =>
        have hmap : (firstContaining x ps).map (· + 1) = some (i + 1) ↔
            firstContaining x ps = some i := by
          cases hfc : firstContaining x ps <;> simp [hfc]
        rw [hmap, ih i]
        simp only [List.length_cons, List.getD_cons_succ]
        constructor
        · rintro ⟨h1, h2, h3⟩
          refine ⟨by omega, h2, fun j hj => ?_⟩
          cases j with
          | zero => simpa using h
          | succ j => rw [List.getD_cons_succ]; exact h3 j (by omega)
        · rintro ⟨h1, h2, h3⟩
          refine ⟨by omega, h2, fun j hj => ?_⟩
          have := h3 (j + 1) (by omega)
          rwa [List.getD_cons_succ] at this

/-- Claim C2.  The hit-test walk of `PanelWindow.mouse_action` agrees with
the extent computation of `PanelWindow.draw`: for every widget sequence and
pointer x-coordinate it returns the index of the first widget whose drawn
extent contains `x` (no earlier extent contains `x`), and `none` exactly when
no widget's extent contains `x`. -/
theorem hit_test_consistency (total x : Int) (ws : List Int) :
    hitTest total x 0 ws = firstContaining x (layoutExtents total 0 ws) ∧
    (∀ i : Nat,
      hitTest total x 0 ws = some i ↔
        i < (layoutExtents total 0 ws).length ∧
        (((layoutExtents total 0 ws).getD i (0, 0)).1 ≤ x ∧
          x < ((layoutExtents total 0 ws).getD i (0, 0)).2) ∧
        ∀ j : Nat, j < i →
          ¬(((layoutExtents total 0 ws).getD j (0, 0)).1 ≤ x ∧
            x < ((layoutExtents total 0 ws).getD j (0, 0)).2)) ∧
    (hitTest total x 0 ws = none ↔
      ∀ p ∈ layoutExtents total 0 ws, ¬(p.1 ≤ x ∧ x < p.2)) := by
  refine ⟨hitTest_eq_firstContaining total x ws 0, fun i => ?_, ?_⟩
  · rw [hitTest_eq_firstContaining total x ws 0]
    exact firstContaining_some_iff x _ i
  · rw [hitTest_eq_firstContaining total x ws 0]
    exact firstContaining_none_iff x _

/-- Witness for `hit_test_consistency`: concrete evaluation on the widget
list `[28, -1, 70]` with total width 200 at pointer position 130, which lies
in the third widget's extent `[130, 200)`. -/
theorem hit_test_consistency_spot :
    hitTest 200 130 0 [28, -1, 70] = some 2 ∧
    (hitTest 200 130 0 [28, -1, 70] = none ↔
      ∀ p ∈ layoutExtents 200 0 [(28 : Int), -1, 70],
        ¬(p.1 ≤ 130 ∧ 130 < p.2)) :=
  ⟨by decide, (hit_test_consistency 200 130 [28, -1, 70]).2.2⟩

/-! ### Alt-tab state machine (alt_tab, panel.py lines 940-959) -/

/-- Global alt-tab state: the `tabbing` flag, the signed index `new_focused`
into the z-order list, and whether the `AlttabWindow` overlay exists. -/
structure TabState where
  tabbing : Bool
  new_focused : Int
  alttabOpen : Bool
deriving DecidableEq

/-- The `alt_tab` handler.  `shift` records whether MOD_LEFT_SHIFT is held
(direction `+1`, else `-1`), `count` is `len(windows_zorder)`.  Returns the
new state together with a flag recording whether a fresh `AlttabWindow`
overlay was created during the call. -/
def alt_tab (shift : Bool) (count : Nat) (st : TabState) : TabState × Bool :=
  let direction : Int := if shift then 1 else -1
  if count < 1 then (st, false)
  else
    let nf : Int :=
      if st.tabbing then st.new_focused + direction
      else (count : Int) - 1 + direction
    let opened := !st.tabbing
    let alttabOpen := if st.tabbing then st.alttabOpen else true
    let nf : Int :=
      if nf < 0 then (count : Int) - 1
      else if nf ≥ (count : Int) then 0 else nf
    ({ tabbing := true, new_focused := nf, alttabOpen := alttabOpen }, opened)

/-- Iterated alt-tab transitions (repeated Tab key-downs while Alt is
held). -/
def tabIter (shift : Bool) (count : Nat) (k : Nat) (st : TabState) : TabState :=
  (fun s => (alt_tab shift count s).1)^[k] st

theorem alt_tab_tabbing_step (shift : Bool) (count : Nat) (st : TabState)
    (hc : 1 ≤ count) (htab : st.tabbing = true)
    (hlo : 0 ≤ st.new_focused) (hhi : st.new_focused < (count : Int)) :
    (alt_tab shift count st).1.tabbing = true ∧
    (alt_tab shift count st).1.alttabOpen = st.alttabOpen ∧
    (alt_tab shift count st).1.new_focused =
      (st.new_focused + (if shift then 1 else -1)) % (count : Int) := by
  have hc' : ¬(count < 1) := by omega
  have hn : (0 : Int) < (count : Int) := by exact_mod_cast hc
  simp only [alt_tab, if_neg hc', htab, if_true]
  refine ⟨by trivial, by trivial, ?_⟩
  set d : Int := if shift then 1 else -1 with hd
  have hd1 : d = 1 ∨ d = -1 := by cases shift <;> simp [hd]
  rcases hd1 with h1 | h1
  · rw [h1]
    by_cases hge : st.new_focused + 1 ≥ (count : Int)
    · have heq : st.new_focused + 1 = (count : Int) := by omega
      rw [if_neg (by omega), if_pos hge, heq, Int.emod_self]
    · rw [if_neg (by omega), if_neg hge]
      exact (Int.emod_eq_of_lt (by omega) (by omega)).symm
  · rw [h1]
    by_cases hneg : st.new_focused + -1 < 0
    · have heq : st.new_focused + -1 = -1 := by omega
      rw [if_pos hneg, heq]
      have h2 : ((-1 : Int) + (count : Int) * 1) % (count : Int) =
          (-1 : Int) % (count : Int) :=
        Int.add_mul_emod_self_left (-1) (count : Int) 1
      rw [← h2, show (-1 : Int) + (count : Int) * 1 = (count : Int) - 1 from by
        ring]
      exact (Int.emod_eq_of_lt (by omega) (by omega)).symm
    · rw [if_neg hneg, if_neg (by omega)]
      exact (Int.emod_eq_of_lt (by omega) (by omega)).symm

theorem tabIter_formula (shift : Bool) (count : Nat) (st : TabState)
    (hc : 1 ≤ count) (htab : st.tabbing = true)
    (hlo : 0 ≤ st.new_focused) (hhi : st.new_focused < (count : Int)) :
    ∀ k : Nat,
      (tabIter shift count k st).tabbing = true ∧
      (tabIter shift count k st).new_focused =
        (st.new_focused + (k : Int) * (if shift then 1 else -1)) %
          (count : Int) := by
  have hn : (0 : Int) < (count : Int) := by exact_mod_cast hc
  intro k
  induction k with
  | zero =>
    refine ⟨htab, ?_⟩
    simp only [tabIter, Function.iterate_zero, id_eq, Nat.cast_zero, zero_mul,
      add_zero]
    exact (Int.emod_eq_of_lt hlo hhi).symm
  | succ k ih =>
    obtain ⟨ihtab, ihval⟩ := ih
    have hstep := alt_tab_tabbing_step shift count (tabIter shift count k st)
      hc ihtab
      (by rw [ihval]; exact Int.emod_nonneg _ (by omega))
      (by rw [ihval]; exact Int.emod_lt_of_pos _ hn)
    have hiter : tabIter shift count (k + 1) st =
        (alt_tab shift count (tabIter shift count k st)).1 := by
      simp only [tabIter, Function.iterate_succ_apply']
    refine ⟨by rw [hiter]; exact hstep.1, ?_⟩
    rw [hiter, hstep.2.2, ihval]
    set d : Int := if shift then 1 else -1 with hd
    have h1 : ((st.new_focused + (k : Int) * d) % (count : Int) + d) %
        (count : Int) = (st.new_focused + (k : Int) * d + d) % (count : Int) :=
      Int.emod_add_emod _ _ _
    rw [h1]
    congr 1
    push_cast
    ring

theorem tabIter_surjective (shift : Bool) (count : Nat) (st : TabState)
    (hc : 1 ≤ count) (htab : st.tabbing = true)
    (hlo : 0 ≤ st.new_focused) (hhi : st.new_focused < (count : Int)) :
    ∀ j : Int, 0 ≤ j → j < (count : Int) →
      ∃ k : Nat, k < count ∧ (tabIter shift count k st).new_focused = j := by
  have hn : (0 : Int) < (count : Int) := by exact_mod_cast hc
  intro j hj0 hjc
  set d : Int := if shift then 1 else -1 with hd
  set m : Int := (j - st.new_focused) * d with hm
  refine ⟨(m % (count : Int)).toNat, ?_, ?_⟩
  · have h1 : m % (count : Int) < (count : Int) := Int.emod_lt_of_pos _ hn
    omega
  · have h0 : 0 ≤ m % (count : Int) := Int.emod_nonneg _ (by omega)
    have hcast : ((m % (count : Int)).toNat : Int) = m % (count : Int) :=
      Int.toNat_of_nonneg h0
    rw [(tabIter_formula shift count st hc htab hlo hhi _).2, hcast]
    have hmul : ((m % (count : Int)) * d) % (count : Int) =
        (m * d) % (count : Int) := by
      rw [Int.mul_emod, Int.emod_emod_of_dvd m dvd_rfl, ← Int.mul_emod]
    have hadd : (st.new_focused + (m % (count : Int)) * d) % (count : Int) =
        (st.new_focused + m * d) % (count : Int) := by
      rw [Int.add_emod, hmul, ← Int.add_emod]
    rw [hadd]
    have hdd : d * d = 1 := by
      cases shift <;> simp [hd]
    have : st.new_focused + m * d = j := by
      rw [hm]
      have : (j - st.new_focused) * d * d = (j - st.new_focused) * (d * d) := by
        ring
      rw [this, hdd, mul_one]
      ring
    rw [this]
    exact Int.emod_eq_of_lt hj0 hjc

/-- Claim C4.  In the tabbing state with a z-order list of `count ≥ 1`
windows and an in-range index, every further Alt+Tab transition updates the
index as `(i + direction) mod count` with direction `+1` when Shift is held
and `-1` otherwise; iterating the transition follows the formula
`(i + k * direction) mod count`, and within `count` steps every index in
`[0, count)` is visited (wrap-around in both directions). -/
theorem alt_tab_wraparound (shift : Bool) (count : Nat) (st : TabState)
    (hc : 1 ≤ count) (htab : st.tabbing = true)
    (hlo : 0 ≤ st.new_focused) (hhi : st.new_focused < (count : Int)) :
    ((alt_tab shift count st).1.new_focused =
      (st.new_focused + (if shift then 1 else -1)) % (count : Int)) ∧
    ((alt_tab shift count st).1.tabbing = true) ∧
    (∀ k : Nat,
      (tabIter shift count k st).new_focused =
        (st.new_focused + (k : Int) * (if shift then 1 else -1)) %
          (count : Int)) ∧
    (∀ j : Int, 0 ≤ j → j < (count : Int) →
      ∃ k : Nat, k < count ∧ (tabIter shift count k st).new_focused = j) :=
  ⟨(alt_tab_tabbing_step shift count st hc htab hlo hhi).2.2,
    (alt_tab_tabbing_step shift count st hc htab hlo hhi).1,
    fun k => (tabIter_formula shift count st hc htab hlo hhi k).2,
    tabIter_surjective shift count st hc htab hlo hhi⟩

/-- Witness for `alt_tab_wraparound`: with three windows, tabbing at index 0,
a plain Tab (direction `-1`) wraps to index 2. -/
theorem alt_tab_wraparound_spot :
    (1 ≤ 3 ∧ (0 : Int) ≤ 0 ∧ (0 : Int) < (3 : Nat)) ∧
    (alt_tab false 3 ⟨true, 0, true⟩).1.new_focused =
      ((0 : Int) + (if false then 1 else -1)) % ((3 : Nat) : Int) ∧
    (alt_tab false 3 ⟨true, 0, true⟩).1.new_focused = 2 :=
  ⟨⟨by decide, by decide, by decide⟩,
    (alt_tab_wraparound false 3 ⟨true, 0, true⟩ (by decide) (by decide)
      (by decide) (by decide)).1,
    by decide⟩

/-- Claim C10.  With an empty z-order list, an Alt+Tab key-down is a complete
no-op: the `tabbing` flag, `new_focused` index and overlay reference are all
unchanged and no overlay window is created. -/
theorem alt_tab_empty_noop (shift : Bool) (st : TabState) :
    alt_tab shift 0 st = (st, false) := by
  simp [alt_tab]

/-! ### Volume widget (VolumeWidget, panel.py lines 125-201) -/

/-- State of the volume widget: the current level, the muted flag and the
saved pre-mute level. -/
structure VolumeWidget where
  volume : Nat
  muted : Bool
  previous_volume : Nat
deriving DecidableEq

/-- `VolumeWidget.volume_up` (panel.py lines 169-174), without the
side-effecting mixer write. -/
def volume_up (s : VolumeWidget) : VolumeWidget :=
  if s.volume > 0xE0000000 then { s with volume := 0xF0000000 }
  else { s with volume := s.volume + 0x10000000 }

/-- `VolumeWidget.volume_down` (panel.py lines 176-181), without the
side-effecting mixer write. -/
def volume_down (s : VolumeWidget) : VolumeWidget :=
  if s.volume < 0x20000000 then { s with volume := 0 }
  else { s with volume := s.volume - 0x10000000 }

/-- Abstraction of the mouse message cases `VolumeWidget.mouse_action`
distinguishes: a click, a scroll up, a scroll down, or anything else. -/
inductive VolMouse where
  | click
  | scrollUp
  | scrollDown
  | other
deriving DecidableEq

/-- `VolumeWidget.mouse_action` (panel.py lines 183-201): click toggles mute,
saving and restoring the level through `previous_volume`; scrolls adjust the
level; the returned flag is whether a repaint is needed. -/
def vol_mouse_action : VolMouse → VolumeWidget → VolumeWidget × Bool
  | .click, s =>
    if s.muted then ({ s with muted := false, volume := s.previous_volume }, true)
    else ({ s with muted := true, previous_volume := s.volume, volume := 0 }, true)
  | .scrollUp, s => (volume_up s, true)
  | .scrollDown, s => (volume_down s, true)
  | .other, s => (s, false)

/-- Claim C5.  `volume_up` from any level `≥ 0xE0000000` yields exactly
`0xF0000000`; `volume_down` from any level `< 0x20000000` yields exactly `0`;
and a mute click followed by an unmute click with no intervening volume
change restores the pre-mute level (and unmuted flag) exactly. -/
theorem volume_clamp_and_mute (s : VolumeWidget) :
    (0xE0000000 ≤ s.volume → (volume_up s).volume = 0xF0000000) ∧
    (s.volume < 0x20000000 → (volume_down s).volume = 0) ∧
    (s.muted = false →
      ((vol_mouse_action .click
          (vol_mouse_action .click s).1).1).volume = s.volume ∧
      ((vol_mouse_action .click
          (vol_mouse_action .click s).1).1).muted = false) := by
  refine ⟨fun h => ?_, fun h => ?_, fun h => ?_⟩
  · by_cases h2 : s.volume > 0xE0000000
    · simp [volume_up, h2]
    · have : s.volume = 0xE0000000 := by omega
      simp [volume_up, h2, this]
  · simp [volume_down, h]
  · simp [vol_mouse_action, h]

/-- Witness for `volume_clamp_and_mute` at the concrete state with level
`0xE0000000`, unmuted: the boundary level clamps up to exactly `0xF0000000`,
and mute then unmute restores the level. -/
theorem volume_clamp_and_mute_spot :
    (0xE0000000 ≤ (VolumeWidget.mk 0xE0000000 false 5).volume ∧
      (VolumeWidget.mk 0x10000000 false 5).volume < 0x20000000 ∧
      (VolumeWidget.mk 0xE0000000 false 5).muted = false) ∧
    (volume_up (VolumeWidget.mk 0xE0000000 false 5)).volume = 0xF0000000 ∧
    (volume_down (VolumeWidget.mk 0x10000000 false 5)).volume = 0 ∧
    ((vol_mouse_action .click
        (vol_mouse_action .click (VolumeWidget.mk 0xE0000000 false 5)).1).1).volume
      = 0xE0000000 :=
  ⟨⟨by decide, by decide, by decide⟩,
    (volume_clamp_and_mute (VolumeWidget.mk 0xE0000000 false 5)).1 (by decide),
    (volume_clamp_and_mute (VolumeWidget.mk 0x10000000 false 5)).2.1 (by decide),
    ((volume_clamp_and_mute (VolumeWidget.mk 0xE0000000 false 5)).2.2 rfl).1⟩

/-! ### Focus tracking (PanelWindow.mouse_action, panel.py lines 416-445;
WallpaperWindow.mouse_action, panel.py lines 690-729) -/

/-- A focus side effect: `focus_leave i` or `focus_enter i` invoked on the
widget/icon at index `i`. -/
inductive FocusEv where
  | leave (i : Nat)
  | enter (i : Nat)
deriving DecidableEq

/-- Set element `i` of a Boolean flag list (the per-widget/per-icon hilight
state toggled by `focus_enter`/`focus_leave`). -/
def setFlag : List Bool → Nat → Bool → List Bool
  | [], _, _ => []
  | _ :: t, 0, b => b :: t
  | h :: t, i + 1, b => h :: setFlag t i b

/-- Panel focus state: the `focused_widget` field together with the
per-widget hilight flags. -/
structure PanelFocus where
  focused_widget : Option Nat
  flags : List Bool
deriving DecidableEq

/-- Wallpaper focus state: the `focused_icon` field together with the
per-icon hilight flags. -/
structure WallpaperFocus where
  focused_icon : Option Nat
  flags : List Bool
deriving DecidableEq

/-- A mouse message: its command code (5 is the LEAVE command) and the
pointer position. -/
structure MouseMsg where
  command : Int
  new_x : Int
  new_y : Int
deriving DecidableEq

/-- The focus hand-over common to the panel and wallpaper controllers
(panel.py lines 433-440 and 714-723): when the entity under the mouse
differs from the focused one, leave the old one (if any) and then enter the
new one (if any), in that order; otherwise nothing changes.  Returns the new
focused entity, the new flag list, and the ordered list of focus events
fired. -/
def focusShift (u : Option Nat) (focused : Option Nat) (flags : List Bool) :
    Option Nat × List Bool × List FocusEv :=
  if u ≠ focused then
    let p1 : List Bool × List FocusEv :=
      match focused with
      | some i => (setFlag flags i false, [FocusEv.leave i])
      | none => (flags, [])
    let p2 : List Bool × List FocusEv :=
      match u with
      | some j => (setFlag p1.1 j true, [FocusEv.enter j])
      | none => (p1.1, [])
    (u, p2.1, p1.2 ++ p2.2)
  else (focused, flags, [])

/-- `PanelWindow.mouse_action` restricted to its focus behaviour: on a LEAVE
command (5) or a pointer below the panel with a focused widget, leave it;
otherwise, when the pointer is inside the panel, hand focus over to the
widget under the mouse (found by the `hitTest` walk). -/
def panel_mouse_action (total height : Int) (ws : List Int) (msg : MouseMsg)
    (st : PanelFocus) : PanelFocus × List FocusEv :=
  if (msg.command = 5 ∨ msg.new_y ≥ height) ∧ st.focused_widget.isSome = true then
    match st.focused_widget with
    | some i =>
      ({ focused_widget := none, flags := setFlag st.flags i false },
        [FocusEv.leave i])
    | none => (st, [])
  else if msg.new_y < height then
    let r := focusShift (hitTest total msg.new_x 0 ws) st.focused_widget st.flags
    ({ focused_widget := r.1, flags := r.2.1 }, r.2.2)
  else (st, [])

/-- The icon-grid walk shared by `WallpaperWindow.draw` and
`WallpaperWindow.mouse_action` (panel.py lines 699-713): icons of sizes
`(width, height)` are laid out top-to-bottom starting at `(20, 50)`, a new
column starting (at the previous x-offset plus the widest icon seen) whenever
the next icon would exceed the surface height; returns the index of the first
icon whose rectangle contains the pointer. -/
def iconWalk (height x y : Int) : Int → Int → Int → List (Int × Int) → Option Nat
  | _, _, _, [] => none
  | ox, oy, lw, (w, h) :: icons =>
    let oy' := if oy > height - h then (50 : Int) else oy
    let ox' := if oy > height - h then ox + lw else ox
    let lw' := if oy > height - h then (0 : Int) else lw
    let lw2 := if w > lw' then w else lw'
    if x ≥ ox' ∧ x < ox' + w ∧ y ≥ oy' ∧ y < oy' + h then some 0
    else (iconWalk height x y ox' (oy' + h) lw2 icons).map (· + 1)

/-- `WallpaperWindow.mouse_action` restricted to its focus behaviour.  Unlike
the panel there is no `new_y < height` guard on the hand-over branch. -/
def wallpaper_mouse_action (height : Int) (icons : List (Int × Int))
    (msg : MouseMsg) (st : WallpaperFocus) : WallpaperFocus × List FocusEv :=
  if (msg.command = 5 ∨ msg.new_y ≥ height) ∧ st.focused_icon.isSome = true then
    match st.focused_icon with
    | some i =>
      ({ focused_icon := none, flags := setFlag st.flags i false },
        [FocusEv.leave i])
    | none => (st, [])
  else
    let r := focusShift (iconWalk height msg.new_x msg.new_y 20 50 0 icons)
      st.focused_icon st.flags
    ({ focused_icon := r.1, flags := r.2.1 }, r.2.2)

/-- The flag list faithfully mirrors the single nullable focus field: flag
`i` is set exactly when entity `i` is the focused one, and the focused index
is in range. -/
def focusOk (focused : Option Nat) (flags : List Bool) : Prop :=
  (∀ i : Nat, i < flags.length →
    (flags.getD i false = true ↔ focused = some i)) ∧
  (∀ i : Nat, focused = some i → i < flags.length)

/-- Initial panel focus state: no widget focused, no flag set. -/
def panelInit (n : Nat) : PanelFocus := ⟨none, List.replicate n false⟩

/-- Initial wallpaper focus state: no icon focused, no flag set. -/
def wallpaperInit (n : Nat) : WallpaperFocus := ⟨none, List.replicate n false⟩

/-- Folding a sequence of mouse messages through the panel controller. -/
def panelRun (total height : Int) (ws : List Int) (msgs : List MouseMsg)
    (st : PanelFocus) : PanelFocus :=
  msgs.foldl (fun s m => (panel_mouse_action total height ws m s).1) st

/-- Folding a sequence of mouse messages through the wallpaper controller. -/
def wallpaperRun (height : Int) (icons : List (Int × Int))
    (msgs : List MouseMsg) (st : WallpaperFocus) : WallpaperFocus :=
  msgs.foldl (fun s m => (wallpaper_mouse_action height icons m s).1) st

theorem length_setFlag :
    ∀ (l : List Bool) (i : Nat) (b : Bool), (setFlag l i b).length = l.length := by
  intro l
  induction l with
  | nil => intro i b; rfl
  | cons h t ih =>
    intro i b
    cases i with
    | zero => rfl
    | succ i => simp [setFlag, ih]

theorem getD_setFlag_self :
    ∀ (l : List Bool) (i : Nat) (b : Bool), i < l.length →
      (setFlag l i b).getD i false = b := by
  intro l
  induction l with
  | nil => intro i b h; simp at h
  | cons hd t ih =>
    intro i b h
    cases i with
    | zero => rfl
    | succ i =>
      simp only [setFlag, List.getD_cons_succ]
      exact ih i b (by simp at h; omega)

theorem getD_setFlag_other :
    ∀ (l : List Bool) (i j : Nat) (b : Bool), i ≠ j →
      (setFlag l i b).getD j false = l.getD j false := by
  intro l
  induction l with
  | nil => intro i j b h; cases i <;> rfl
  | cons hd t ih =>
    intro i j b h
    cases i with
    | zero =>
      cases j with
      | zero => exact absurd rfl h
      | succ j => rfl
    | succ i =>
      cases j with
      | zero => rfl
      | succ j =>
        simp only [setFlag, List.getD_cons_succ]
        exact ih i j b (by omega)

theorem hitTest_lt_length (total x : Int) :
    ∀ (ws : List Int) (offset : Int) (i : Nat),
      hitTest total x offset ws = some i → i < ws.length := by
  intro ws
  induction ws with
  | nil => intro offset i h; simp [hitTest] at h
  | cons w ws ih =>
    intro offset i h
    simp only [hitTest] at h
    set r : Int := if w = -1 then total - sumWidths ws else offset + w with hr
    by_cases hcond : offset ≤ x ∧ x < r
    · rw [if_pos hcond] at h
      cases h
      simp
    · rw [if_neg hcond] at h
      cases hfc : hitTest total x r ws with
      | none => rw [hfc] at h; simp at h
      | some k =>
        rw [hfc] at h
        simp only [Option.map_some'] at h
        cases h
        have := ih r k hfc
        simp only [List.length_cons]
        omega

theorem iconWalk_lt_length (height x y : Int) :
    ∀ (icons : List (Int × Int)) (ox oy lw : Int) (i : Nat),
      iconWalk height x y ox oy lw icons = some i → i < icons.length := by
  intro icons
  induction icons with
  | nil => intro ox oy lw i h; simp [iconWalk] at h
  | cons p icons ih =>
    intro ox oy lw i h
    obtain ⟨w, hgt⟩ := p
    simp only [iconWalk] at h
    set ox' : Int := if oy > height - hgt then ox + lw else ox with hox
    set oy' : Int := if oy > height - hgt then (50 : Int) else oy with hoy
    set lw' : Int := if oy > height - hgt then (0 : Int) else lw with hlw
    by_cases hcond : x ≥ ox' ∧ x < ox' + w ∧ y ≥ oy' ∧ y < oy' + hgt
    · rw [if_pos hcond] at h
      cases h
      simp
    · rw [if_neg hcond] at h
      cases hfc : iconWalk height x y ox' (oy' + hgt)
        (if w > lw' then w else lw') icons with
      | none => rw [hfc] at h; simp at h
      | some k =>
        rw [hfc] at h
        simp only [Option.map_some'] at h
        cases h
        have := ih ox' (oy' + hgt) (if w > lw' then w else lw') k hfc
        simp only [List.length_cons]
        omega

theorem focusShift_ok (u focused : Option Nat) (flags : List Bool)
    (hok : focusOk focused flags)
    (hu : ∀ j : Nat, u = some j → j < flags.length) :
    focusOk (focusShift u focused flags).1 (focusShift u focused flags).2.1 ∧
    (focusShift u focused flags).2.1.length = flags.length := by
  obtain ⟨hiff, hrange⟩ := hok
  by_cases hne : u ≠ focused
  · cases focused with
    | none =>
      cases u with
      | none => exact absurd rfl hne
      | some j =>
        have hj : j < flags.length := hu j rfl
        simp only [focusShift, if_pos hne]
        refine ⟨⟨?_, ?_⟩, length_setFlag _ _ _⟩
        · intro k hk
          rw [length_setFlag] at hk
          by_cases hkj : j = k
          · subst hkj
            rw [getD_setFlag_self _ _ _ hj]
            simp
          · rw [getD_setFlag_other _ _ _ _ hkj]
            rw [hiff k hk]
            constructor
            · intro hc; cases hc
            · intro hc
              have hck := Option.some.inj hc; omega
        · intro k hk
          rw [length_setFlag]
          cases Option.some.inj hk
          exact hj
    | some i =>
      have hi : i < flags.length := hrange i rfl
      cases u with
      | none =>
        simp only [focusShift, if_pos hne]
        refine ⟨⟨?_, ?_⟩, length_setFlag _ _ _⟩
        · intro k hk
          rw [length_setFlag] at hk
          by_cases hki : i = k
          · subst hki
            rw [getD_setFlag_self _ _ _ hi]
            simp
          · rw [getD_setFlag_other _ _ _ _ hki]
            rw [hiff k hk]
            constructor
            · intro hc
              have hck := Option.some.inj hc; omega
            · intro hc; cases hc
        · intro k hk; cases hk
      | some j =>
        have hj : j < flags.length := hu j rfl
        have hij : j ≠ i := fun hc => hne (by rw [hc])
        simp only [focusShift, if_pos hne]
        refine ⟨⟨?_, ?_⟩, ?_⟩
        · intro k hk
          rw [length_setFlag, length_setFlag] at hk
          by_cases hkj : j = k
          · subst hkj
            rw [getD_setFlag_self _ _ _ (by rw [length_setFlag]; exact hj)]
            simp
          · rw [getD_setFlag_other _ _ _ _ hkj]
            by_cases hki : i = k
            · subst hki
              rw [getD_setFlag_self _ _ _ hi]
              constructor
              · intro hc; cases hc
              · intro hc
                have hck := Option.some.inj hc; omega
            · rw [getD_setFlag_other _ _ _ _ hki, hiff k hk]
              constructor
              · intro hc
                have hck := Option.some.inj hc; omega
              · intro hc
                have hck := Option.some.inj hc; omega
        · intro k hk
          rw [length_setFlag, length_setFlag]
          cases Option.some.inj hk
          exact hj
        · rw [length_setFlag, length_setFlag]
  · rw [not_not] at hne
    have hcond : ¬(u ≠ focused) := fun hc => hc hne
    simp only [focusShift, if_neg hcond]
    exact ⟨⟨hiff, hrange⟩, by trivial⟩

theorem panel_mouse_ok (total height : Int) (ws : List Int) (msg : MouseMsg)
    (st : PanelFocus) (hok : focusOk st.focused_widget st.flags)
    (hlen : st.flags.length = ws.length) :
    focusOk (panel_mouse_action total height ws msg st).1.focused_widget
      (panel_mouse_action total height ws msg st).1.flags ∧
    (panel_mouse_action total height ws msg st).1.flags.length = ws.length := by
  obtain ⟨hiff, hrange⟩ := hok
  unfold panel_mouse_action
  split
  · rename_i hguard
    cases hfoc : st.focused_widget with
    | none => exact ⟨⟨hiff, hrange⟩, hlen⟩
    | some i =>
      have hi : i < st.flags.length := hrange i hfoc
      refine ⟨⟨?_, ?_⟩, by rw [length_setFlag]; exact hlen⟩
      · intro k hk
        rw [length_setFlag] at hk
        by_cases hki : i = k
        · subst hki
          rw [getD_setFlag_self _ _ _ hi]
          simp
        · rw [getD_setFlag_other _ _ _ _ hki, hiff k hk, hfoc]
          constructor
          · intro hc
            have hck := Option.some.inj hc; omega
          · intro hc; cases hc
      · intro k hk; cases hk
  · split
    · have hshift := focusShift_ok (hitTest total msg.new_x 0 ws)
        st.focused_widget st.flags ⟨hiff, hrange⟩
        (fun j hj => by rw [hlen]; exact hitTest_lt_length total msg.new_x ws 0 j hj)
      exact ⟨hshift.1, by rw [hshift.2]; exact hlen⟩
    · exact ⟨⟨hiff, hrange⟩, hlen⟩

theorem wallpaper_mouse_ok (height : Int) (icons : List (Int × Int))
    (msg : MouseMsg) (st : WallpaperFocus)
    (hok : focusOk st.focused_icon st.flags)
    (hlen : st.flags.length = icons.length) :
    focusOk (wallpaper_mouse_action height icons msg st).1.focused_icon
      (wallpaper_mouse_action height icons msg st).1.flags ∧
    (wallpaper_mouse_action height icons msg st).1.flags.length =
      icons.length := by
  obtain ⟨hiff, hrange⟩ := hok
  unfold wallpaper_mouse_action
  split
  · rename_i hguard
    cases hfoc : st.focused_icon with
    | none => exact ⟨⟨hiff, hrange⟩, hlen⟩
    | some i =>
      have hi : i < st.flags.length := hrange i hfoc
      refine ⟨⟨?_, ?_⟩, by rw [length_setFlag]; exact hlen⟩
      · intro k hk
        rw [length_setFlag] at hk
        by_cases hki : i = k
        · subst hki
          rw [getD_setFlag_self _ _ _ hi]
          simp
        · rw [getD_setFlag_other _ _ _ _ hki, hiff k hk, hfoc]
          constructor
          · intro hc
            have hck := Option.some.inj hc; omega
          · intro hc; cases hc
      · intro k hk; cases hk
  · have hshift := focusShift_ok
      (iconWalk height msg.new_x msg.new_y 20 50 0 icons)
      st.focused_icon st.flags ⟨hiff, hrange⟩
      (fun j hj => by
        rw [hlen]
        exact iconWalk_lt_length height msg.new_x msg.new_y icons 20 50 0 j hj)
    exact ⟨hshift.1, by rw [hshift.2]; exact hlen⟩

theorem panelRun_ok (total height : Int) (ws : List Int) :
    ∀ (msgs : List MouseMsg) (st : PanelFocus),
      focusOk st.focused_widget st.flags → st.flags.length = ws.length →
      focusOk (panelRun total height ws msgs st).focused_widget
        (panelRun total height ws msgs st).flags ∧
      (panelRun total height ws msgs st).flags.length = ws.length := by
  intro msgs
  induction msgs with
  | nil => intro st h1 h2; exact ⟨h1, h2⟩
  | cons m ms ih =>
    intro st h1 h2
    have hstep := panel_mouse_ok total height ws m st h1 h2
    have := ih (panel_mouse_action total height ws m st).1 hstep.1 hstep.2
    simpa only [panelRun, List.foldl_cons] using this

theorem wallpaperRun_ok (height : Int) (icons : List (Int × Int)) :
    ∀ (msgs : List MouseMsg) (st : WallpaperFocus),
      focusOk st.focused_icon st.flags → st.flags.length = icons.length →
      focusOk (wallpaperRun height icons msgs st).focused_icon
        (wallpaperRun height icons msgs st).flags ∧
      (wallpaperRun height icons msgs st).flags.length = icons.length := by
  intro msgs
  induction msgs with
  | nil => intro st h1 h2; exact ⟨h1, h2⟩
  | cons m ms ih =>
    intro st h1 h2
    have hstep := wallpaper_mouse_ok height icons m st h1 h2
    have := ih (wallpaper_mouse_action height icons m st).1 hstep.1 hstep.2
    simpa only [wallpaperRun, List.foldl_cons] using this

theorem getD_replicate_false :
    ∀ (n i : Nat), (List.replicate n false).getD i false = false := by
  intro n
  induction n with
  | zero => intro i; cases i <;> rfl
  | succ n ih =>
    intro i
    cases i with
    | zero => rfl
    | succ i =>
      rw [List.replicate_succ, List.getD_cons_succ]
      exact ih i

theorem focusOk_at_most_one (focused : Option Nat) (flags : List Bool)
    (hok : focusOk focused flags) :
    ∀ i j : Nat, i < flags.length → j < flags.length →
      flags.getD i false = true → flags.getD j false = true → i = j := by
  intro i j hi hj hfi hfj
  have h1 := (hok.1 i hi).mp hfi
  have h2 := (hok.1 j hj).mp hfj
  rw [h1] at h2
  have := Option.some.inj h2
  omega

theorem focusShift_events (u : Option Nat) (i j : Nat) (flags : List Bool)
    (hij : i ≠ j) (hu : (focusShift u (some i) flags).1 = some j) :
    (focusShift u (some i) flags).2.2 = [FocusEv.leave i, FocusEv.enter j] := by
  by_cases h : u = some i
  · subst h
    simp [focusShift] at hu
    exact absurd hu hij
  · simp only [focusShift, if_pos h]
    simp only [focusShift, if_pos h] at hu
    cases u with
    | none => cases hu
    | some k =>
      cases Option.some.inj hu
      rfl

theorem panel_mouse_events (total height : Int) (ws : List Int)
    (msg : MouseMsg) (st : PanelFocus) (i j : Nat) (hij : i ≠ j)
    (hbefore : st.focused_widget = some i)
    (hafter :
      (panel_mouse_action total height ws msg st).1.focused_widget = some j) :
    (panel_mouse_action total height ws msg st).2 =
      [FocusEv.leave i, FocusEv.enter j] := by
  unfold panel_mouse_action at hafter ⊢
  rw [hbefore] at hafter ⊢
  by_cases hguard : (msg.command = 5 ∨ msg.new_y ≥ height) ∧
      (some i : Option Nat).isSome = true
  · rw [if_pos hguard] at hafter
    simp at hafter
  · rw [if_neg hguard] at hafter ⊢
    by_cases hy : msg.new_y < height
    · rw [if_pos hy] at hafter ⊢
      exact focusShift_events _ i j st.flags hij hafter
    · rw [if_neg hy] at hafter
      have h2 : st.focused_widget = some j := hafter
      rw [hbefore] at h2
      exact absurd (Option.some.inj h2) hij

theorem wallpaper_mouse_events (height : Int) (icons : List (Int × Int))
    (msg : MouseMsg) (st : WallpaperFocus) (i j : Nat) (hij : i ≠ j)
    (hbefore : st.focused_icon = some i)
    (hafter :
      (wallpaper_mouse_action height icons msg st).1.focused_icon = some j) :
    (wallpaper_mouse_action height icons msg st).2 =
      [FocusEv.leave i, FocusEv.enter j] := by
  unfold wallpaper_mouse_action at hafter ⊢
  rw [hbefore] at hafter ⊢
  by_cases hguard : (msg.command = 5 ∨ msg.new_y ≥ height) ∧
      (some i : Option Nat).isSome = true
  · rw [if_pos hguard] at hafter
    simp at hafter
  · rw [if_neg hguard] at hafter ⊢
    exact focusShift_events _ i j st.flags hij hafter

/-- Claim C3.  Along any sequence of mouse-dispatch operations from the
initial states, at most one panel widget flag and at most one wallpaper icon
flag is ever set (and each flag list mirrors the single nullable focus
field); and whenever a dispatch moves focus from one widget/icon to a
different one, the events fired are exactly the old one's `focus_leave`
followed by the new one's `focus_enter`. -/
theorem focus_exclusivity (total height : Int) (ws : List Int)
    (icons : List (Int × Int)) :
    (∀ msgs : List MouseMsg,
      focusOk
        (panelRun total height ws msgs (panelInit ws.length)).focused_widget
        (panelRun total height ws msgs (panelInit ws.length)).flags ∧
      (∀ i j : Nat,
        i < (panelRun total height ws msgs (panelInit ws.length)).flags.length →
        j < (panelRun total height ws msgs (panelInit ws.length)).flags.length →
        (panelRun total height ws msgs (panelInit ws.length)).flags.getD i false
          = true →
        (panelRun total height ws msgs (panelInit ws.length)).flags.getD j false
          = true →
        i = j)) ∧
    (∀ msgs : List MouseMsg,
      focusOk
        (wallpaperRun height icons msgs
          (wallpaperInit icons.length)).focused_icon
        (wallpaperRun height icons msgs (wallpaperInit icons.length)).flags ∧
      (∀ i j : Nat,
        i < (wallpaperRun height icons msgs
          (wallpaperInit icons.length)).flags.length →
        j < (wallpaperRun height icons msgs
          (wallpaperInit icons.length)).flags.length →
        (wallpaperRun height icons msgs
          (wallpaperInit icons.length)).flags.getD i false = true →
        (wallpaperRun height icons msgs
          (wallpaperInit icons.length)).flags.getD j false = true →
        i = j)) ∧
    (∀ (msg : MouseMsg) (st : PanelFocus) (i j : Nat), i ≠ j →
      st.focused_widget = some i →
      (panel_mouse_action total height ws msg st).1.focused_widget = some j →
      (panel_mouse_action total height ws msg st).2 =
        [FocusEv.leave i, FocusEv.enter j]) ∧
    (∀ (msg : MouseMsg) (st : WallpaperFocus) (i j : Nat), i ≠ j →
      st.focused_icon = some i →
      (wallpaper_mouse_action height icons msg st).1.focused_icon = some j →
      (wallpaper_mouse_action height icons msg st).2 =
        [FocusEv.leave i, FocusEv.enter j]) := by
  have hpinit : focusOk (panelInit ws.length).focused_widget
      (panelInit ws.length).flags := by
    refine ⟨fun i hi => ?_, fun i hc => by simp [panelInit] at hc⟩
    simp only [panelInit, getD_replicate_false]
    simp
  have hwinit : focusOk (wallpaperInit icons.length).focused_icon
      (wallpaperInit icons.length).flags := by
    refine ⟨fun i hi => ?_, fun i hc => by simp [wallpaperInit] at hc⟩
    simp only [wallpaperInit, getD_replicate_false]
    simp
  refine ⟨fun msgs => ?_, fun msgs => ?_,
    panel_mouse_events total height ws, wallpaper_mouse_events height icons⟩
  · have hrun := panelRun_ok total height ws msgs (panelInit ws.length) hpinit
      (by simp [panelInit])
    exact ⟨hrun.1, focusOk_at_most_one _ _ hrun.1⟩
  · have hrun := wallpaperRun_ok height icons msgs (wallpaperInit icons.length)
      hwinit (by simp [wallpaperInit])
    exact ⟨hrun.1, focusOk_at_most_one _ _ hrun.1⟩

/-- Witness for `focus_exclusivity`: on the panel `[28, -1, 70]` of height 28
with total width 200, moving the pointer from `x = 10` (widget 0) to
`x = 140` (widget 2) fires exactly `focus_leave 0` then `focus_enter 2`, and
running both messages from the initial state leaves exactly one flag set. -/
theorem focus_exclusivity_spot :
    ((panel_mouse_action 200 28 [28, -1, 70] ⟨0, 10, 4⟩
        (panelInit 3)).1.focused_widget = some 0) ∧
    ((0 : Nat) ≠ 2) ∧
    ((panel_mouse_action 200 28 [28, -1, 70] ⟨0, 140, 4⟩
        (panel_mouse_action 200 28 [28, -1, 70] ⟨0, 10, 4⟩
          (panelInit 3)).1).1.focused_widget = some 2) ∧
    ((panel_mouse_action 200 28 [28, -1, 70] ⟨0, 140, 4⟩
        (panel_mouse_action 200 28 [28, -1, 70] ⟨0, 10, 4⟩
          (panelInit 3)).1).2 = [FocusEv.leave 0, FocusEv.enter 2]) :=
  ⟨by decide, by decide, by decide,
    (focus_exclusivity 200 28 [28, -1, 70] []).2.2.1 ⟨0, 140, 4⟩
      (panel_mouse_action 200 28 [28, -1, 70] ⟨0, 10, 4⟩ (panelInit 3)).1
      0 2 (by decide) (by decide) (by decide)⟩

/-! ### Application runner (ApplicationRunnerWindow, panel.py lines 783-846) -/

/-- Python's string comparison, embedded on character lists: lexicographic
by character code. -/
def lexLe : List Char → List Char → Bool
  | [], _ => true
  | _ :: _, [] => false
  | a :: as, b :: bs => if a < b then true else if b < a then false else lexLe as bs

/-- `lexLe` as a relation. -/
def lexLeP (a b : List Char) : Prop := lexLe a b = true

instance : DecidableRel lexLeP := fun a b =>
  inferInstanceAs (Decidable (lexLe a b = true))

theorem lexLe_total : ∀ a b : List Char, lexLe a b = true ∨ lexLe b a = true := by
  intro a
  induction a with
  | nil => intro b; left; rfl
  | cons x as ih =>
    intro b
    cases b with
    | nil => right; rfl
    | cons y bs =>
      simp only [lexLe]
      by_cases hxy : x < y
      · left; rw [if_pos hxy]
      · by_cases hyx : y < x
        · right; rw [if_pos hyx]
        · have heq : x = y := le_antisymm (not_lt.mp hyx) (not_lt.mp hxy)
          subst heq
          rw [if_neg hxy, if_neg hxy, if_neg hxy, if_neg hxy]
          rcases ih bs with h | h
          · left; exact h
          · right; exact h

theorem lexLe_trans :
    ∀ a b c : List Char, lexLe a b = true → lexLe b c = true →
      lexLe a c = true := by
  intro a
  induction a with
  | nil => intro b c _ _; rfl
  | cons x as ih =>
    intro b c hab hbc
    cases b with
    | nil => simp [lexLe] at hab
    | cons y bs =>
      cases c with
      | nil => simp [lexLe] at hbc
      | cons z cs =>
        simp only [lexLe] at hab hbc ⊢
        by_cases hxy : x < y
        · by_cases hyz : y < z
          · rw [if_pos (lt_trans hxy hyz)]
          · by_cases hzy : z < y
            · rw [if_neg hyz, if_pos hzy] at hbc; cases hbc
            · have heq : y = z := le_antisymm (not_lt.mp hzy) (not_lt.mp hyz)
              subst heq
              rw [if_pos hxy]
        · by_cases hyx : y < x
          · rw [if_neg hxy, if_pos hyx] at hab; cases hab
          · have heq : x = y := le_antisymm (not_lt.mp hyx) (not_lt.mp hxy)
            subst heq
            rw [if_neg hxy, if_neg hxy] at hab
            by_cases hyz : x < z
            · rw [if_pos hyz]
            · by_cases hzy : z < x
              · rw [if_neg hyz, if_pos hzy] at hbc; cases hbc
              · have heq2 : x = z := le_antisymm (not_lt.mp hzy) (not_lt.mp hyz)
                subst heq2
                rw [if_neg hyz, if_neg hyz] at hbc ⊢
                exact ih bs cs hab hbc

theorem lexLe_refl : ∀ a : List Char, lexLe a a = true := by
  intro a
  induction a with
  | nil => rfl
  | cons x as ih =>
    simp only [lexLe, if_neg (lt_irrefl x)]
    exact ih

instance : IsTotal (List Char) lexLeP := ⟨lexLe_total⟩

instance : IsTrans (List Char) lexLeP := ⟨lexLe_trans⟩

/-- `sorted(self.bins)`: Python's ascending string sort, embedded as
insertion sort by `lexLeP` (for a total, transitive, antisymmetric order the
sorted output is unique, so any sorting algorithm embeds `sorted`
faithfully). -/
def sortedBins (bins : List (List Char)) : List (List Char) :=
  List.insertionSort lexLeP bins

/-- Application-runner text state: the typed buffer `data`, the suggested
completion suffix `complete`, and the `completed` flag
(`ApplicationRunnerWindow.__init__`, panel.py lines 795-797, starts all
empty/false). -/
structure AppRunner where
  data : List Char
  complete : List Char
  completed : Bool
deriving DecidableEq

/-- Initial runner state. -/
def runnerInit : AppRunner := ⟨[], [], false⟩

/-- `ApplicationRunnerWindow.try_complete` (panel.py lines 808-819): with an
empty buffer clear the completion; otherwise scan the sorted executable
names for the first with the buffer as a prefix and keep its suffix after the
buffer; if none matches, clear. -/
def try_complete (bins : List (List Char)) (s : AppRunner) : AppRunner :=
  if s.data = [] then { s with complete := [], completed := false }
  else
    match (sortedBins bins).find? (fun b => s.data.isPrefixOf b) with
    | some b => { s with complete := b.drop s.data.length, completed := true }
    | none => { s with complete := [], completed := false }

/-- The keyboard events `ApplicationRunnerWindow.key_action` distinguishes
(panel.py lines 821-846). -/
inductive RunnerKey where
  | char (c : Char)
  | backspace
  | delKey
  | escape
  | enter
  | nullKey
  | nonDown
deriving DecidableEq

/-- `ApplicationRunnerWindow.key_action`; `none` means the overlay closed
(Escape, or Enter after launching). -/
def key_action (bins : List (List Char)) :
    RunnerKey → AppRunner → Option AppRunner
  | .nonDown, s => some s
  | .escape, _ => none
  | .delKey, s => some { s with complete := [], completed := false }
  | .nullKey, s => some s
  | .enter, _ => none
  | .backspace, s =>
    if s.data ≠ [] then
      some (try_complete bins { s with data := s.data.dropLast })
    else some s
  | .char c, s => some (try_complete bins { s with data := s.data ++ [c] })

/-- The completion field is the one the spec demands for the current buffer:
when `completed`, `data ++ complete` is a member of `bins`, has `data` as a
prefix, and is `lexLe`-least among the members with that prefix; when not
`completed`, the completion is empty and either the buffer is empty or no
member has it as a prefix. -/
def completionOk (bins : List (List Char)) (s : AppRunner) : Prop :=
  (s.completed = true →
    s.data ≠ [] ∧
    (s.data ++ s.complete) ∈ bins ∧
    s.data.isPrefixOf (s.data ++ s.complete) = true ∧
    ∀ b ∈ bins,
      s.data.isPrefixOf b = true → lexLeP (s.data ++ s.complete) b) ∧
  (s.completed = false →
    s.complete = [] ∧
    (s.data = [] ∨ ∀ b ∈ bins, s.data.isPrefixOf b = false))

/-- A buffer that is empty always has a cleared completion. -/
def emptyOk (s : AppRunner) : Prop :=
  s.data = [] → s.complete = [] ∧ s.completed = false

theorem append_drop_of_isPrefixOf (d b : List Char)
    (h : d.isPrefixOf b = true) : d ++ b.drop d.length = b := by
  rw [List.isPrefixOf_iff_prefix] at h
  obtain ⟨t, ht⟩ := h
  rw [← ht, List.drop_left]

theorem find?_sorted_min (p : List Char → Bool) :
    ∀ l : List (List Char), List.Sorted lexLeP l →
      ∀ b, l.find? p = some b → ∀ c ∈ l, p c = true → lexLeP b c := by
  intro l
  induction l with
  | nil => intro _ b h; simp at h
  | cons a l ih =>
    intro hs b hfind c hc hpc
    rw [List.sorted_cons] at hs
    by_cases hpa : p a = true
    · rw [List.find?_cons_of_pos _ hpa] at hfind
      cases Option.some.inj hfind
      rcases List.mem_cons.mp hc with hca | hcl
      · subst hca
        exact lexLe_refl _
      · exact hs.1 c hcl
    · rw [List.find?_cons_of_neg _ (by simpa using hpa)] at hfind
      rcases List.mem_cons.mp hc with hca | hcl
      · subst hca
        exact absurd hpc hpa
      · exact ih hs.2 b hfind c hcl hpc

theorem try_complete_data (bins : List (List Char)) (s : AppRunner) :
    (try_complete bins s).data = s.data := by
  unfold try_complete
  by_cases hd : s.data = []
  · rw [if_pos hd]
  · rw [if_neg hd]
    cases (sortedBins bins).find? (fun b => s.data.isPrefixOf b) <;> rfl

theorem try_complete_ok (bins : List (List Char)) (s : AppRunner) :
    completionOk bins (try_complete bins s) := by
  unfold try_complete completionOk
  by_cases hd : s.data = []
  · rw [if_pos hd]
    refine ⟨fun hc => by simp at hc, fun _ => ⟨rfl, Or.inl hd⟩⟩
  · rw [if_neg hd]
    cases hfind : (sortedBins bins).find? (fun b => s.data.isPrefixOf b) with
    | some b =>
      have hmem : b ∈ sortedBins bins := List.mem_of_find?_eq_some hfind
      have hmem' : b ∈ bins :=
        ((List.perm_insertionSort lexLeP bins).mem_iff).mp hmem
      have hpb : s.data.isPrefixOf b = true := by
        have := List.find?_some hfind
        simpa using this
      have happ : s.data ++ b.drop s.data.length = b :=
        append_drop_of_isPrefixOf _ _ hpb
      refine ⟨fun _ => ⟨hd, ?_, ?_, ?_⟩, fun hc => by simp at hc⟩
      · show s.data ++ b.drop s.data.length ∈ bins
        rw [happ]; exact hmem'
      · show s.data.isPrefixOf (s.data ++ b.drop s.data.length) = true
        rw [happ]; exact hpb
      · intro c hc hpc
        show lexLeP (s.data ++ b.drop s.data.length) c
        rw [happ]
        exact find?_sorted_min _ (sortedBins bins)
          (List.sorted_insertionSort lexLeP bins) b hfind c
          (((List.perm_insertionSort lexLeP bins).mem_iff).mpr hc)
          (by simpa using hpc)
    | none =>
      have hall := List.find?_eq_none.mp hfind
      refine ⟨fun hc => by simp at hc, fun _ => ⟨rfl, Or.inr ?_⟩⟩
      intro c hc
      have h1 := hall c (((List.perm_insertionSort lexLeP bins).mem_iff).mpr hc)
      by_cases hb : s.data.isPrefixOf c = true
      · exact absurd hb (by exact h1)
      · cases hx : s.data.isPrefixOf c with
        | false => rfl
        | true => exact absurd hx hb

theorem try_complete_emptyOk (bins : List (List Char)) (s : AppRunner) :
    emptyOk (try_complete bins s) := by
  intro hdata
  rw [try_complete_data] at hdata
  unfold try_complete
  rw [if_pos hdata]
  exact ⟨rfl, rfl⟩

theorem key_action_emptyOk (bins : List (List Char)) (ev : RunnerKey)
    (s s' : AppRunner) (h : emptyOk s) (hs' : key_action bins ev s = some s') :
    emptyOk s' := by
  cases ev with
  | char c =>
    cases Option.some.inj hs'
    exact try_complete_emptyOk bins _
  | backspace =>
    by_cases hd : s.data ≠ []
    · have hred : key_action bins .backspace s =
          some (try_complete bins { s with data := s.data.dropLast }) := by
        simp only [key_action, if_pos hd]
      rw [hred] at hs'
      cases Option.some.inj hs'
      exact try_complete_emptyOk bins _
    · have hred : key_action bins .backspace s = some s := by
        simp only [key_action, if_neg hd]
      rw [hred] at hs'
      cases Option.some.inj hs'
      exact h
  | delKey =>
    cases Option.some.inj hs'
    intro _; exact ⟨rfl, rfl⟩
  | escape => cases hs'
  | enter => cases hs'
  | nullKey => cases Option.some.inj hs'; exact h
  | nonDown => cases Option.some.inj hs'; exact h

/-- Claim C6.  The application-runner completion invariants: the initial
state has a cleared completion; every key event preserves the property that
an empty buffer has a cleared completion; after every character insert the
completion equals the suffix (after the typed buffer) of the `lexLe`-least
executable name having the buffer as a prefix (cleared if none matches); and
the same holds after every backspace. -/
theorem runner_completion (bins : List (List Char)) :
    emptyOk runnerInit ∧
    (∀ (ev : RunnerKey) (s s' : AppRunner), emptyOk s →
      key_action bins ev s = some s' → emptyOk s') ∧
    (∀ (c : Char) (s s' : AppRunner),
      key_action bins (.char c) s = some s' →
      completionOk bins s' ∧ s'.data = s.data ++ [c]) ∧
    (∀ s s' : AppRunner, emptyOk s →
      key_action bins .backspace s = some s' →
      completionOk bins s' ∧ s'.data = s.data.dropLast) := by
  refine ⟨fun _ => ⟨rfl, rfl⟩, key_action_emptyOk bins, ?_, ?_⟩
  · intro c s s' hs'
    cases Option.some.inj hs'
    refine ⟨try_complete_ok bins _, ?_⟩
    rw [try_complete_data]
  · intro s s' hempty hs'
    by_cases hd : s.data ≠ []
    · have hred : key_action bins .backspace s =
          some (try_complete bins { s with data := s.data.dropLast }) := by
        simp only [key_action, if_pos hd]
      rw [hred] at hs'
      cases Option.some.inj hs'
      refine ⟨try_complete_ok bins _, ?_⟩
      rw [try_complete_data]
    · have hred : key_action bins .backspace s = some s := by
        simp only [key_action, if_neg hd]
      rw [hred] at hs'
      cases Option.some.inj hs'
      rw [not_not] at hd
      obtain ⟨hc, hcf⟩ := hempty hd
      refine ⟨⟨fun hcontra => ?_, fun _ => ⟨hc, Or.inl hd⟩⟩, ?_⟩
      · rw [hcf] at hcontra; cases hcontra
      · rw [hd]; rfl

/-- Witness for `runner_completion`: with executables `ls`, `ln`, `cat` and
typed input `l`, the suggested completion is `n` (from `ln`, the
lexicographically first match). -/
theorem runner_completion_spot :
    key_action [['l', 's'], ['l', 'n'], ['c', 'a', 't']] (.char 'l')
        runnerInit = some ⟨['l'], ['n'], true⟩ ∧
    (completionOk [['l', 's'], ['l', 'n'], ['c', 'a', 't']]
        ⟨['l'], ['n'], true⟩ ∧
      (AppRunner.mk ['l'] ['n'] true).data = runnerInit.data ++ ['l']) :=
  ⟨by decide,
    (runner_completion [['l', 's'], ['l', 'n'], ['c', 'a', 't']]).2.2.1 'l'
      runnerInit ⟨['l'], ['n'], true⟩ (by decide)⟩

/-! ### Window lists (MSG_NOTIFY handler, panel.py lines 1040-1044) -/

/-- A window record as advertised by the display server: stable numeric
identifier, name, and the flag word whose bit 0 marks the active window. -/
structure WindowRec where
  wid : Nat
  name : List Char
  flags : Nat
deriving DecidableEq

/-- Ordering of window records by their numeric identifier (the sort key
`lambda window: window.wid`). -/
def widLe (a b : WindowRec) : Prop := a.wid ≤ b.wid

instance : DecidableRel widLe := fun a b =>
  inferInstanceAs (Decidable (a.wid ≤ b.wid))

instance : IsTotal WindowRec widLe := ⟨fun a b => Nat.le_total a.wid b.wid⟩

instance : IsTrans WindowRec widLe := ⟨fun _ _ _ => Nat.le_trans⟩

/-- The MSG_NOTIFY handler (panel.py lines 1040-1044): both derived window
lists are rebuilt wholesale from the freshly advertised list `ads`.
`windows_zorder` becomes the advertised list itself and `windows` becomes
`sorted(windows_zorder, key=lambda window: window.wid)` (embedded as the
equivalent stable insertion sort by `widLe`). -/
def rebuildWindowLists (ads : List WindowRec) :
    List WindowRec × List WindowRec :=
  (ads, List.insertionSort widLe ads)

/-- Ordering of window records by name, as the spec's words describe the
panel display list ("name-sorted list"); used only to compare the spec's
claim against the code's `rebuildWindowLists`. -/
def nameLe (a b : WindowRec) : Prop := lexLeP a.name b.name

instance : DecidableRel nameLe := fun a b =>
  inferInstanceAs (Decidable (lexLe a.name b.name = true))

/-- The panel display list as the spec's words describe it: the advertised
windows sorted by name. -/
def nameSortedSpec (ads : List WindowRec) : List WindowRec :=
  List.insertionSort nameLe ads

/-- Claim C7's "name-sorted" is false on the code: the handler sorts the
display list by `wid`, not by name.  With windows `(wid 1, name "b")` and
`(wid 2, name "a")` the code keeps them in wid order while the name-sorted
list would swap them. -/
theorem window_lists_not_name_sorted :
    (rebuildWindowLists [⟨1, ['b'], 0⟩, ⟨2, ['a'], 0⟩]).2 =
      [⟨1, ['b'], 0⟩, ⟨2, ['a'], 0⟩] ∧
    nameSortedSpec [⟨1, ['b'], 0⟩, ⟨2, ['a'], 0⟩] =
      [⟨2, ['a'], 0⟩, ⟨1, ['b'], 0⟩] ∧
    (rebuildWindowLists [⟨1, ['b'], 0⟩, ⟨2, ['a'], 0⟩]).2 ≠
      nameSortedSpec [⟨1, ['b'], 0⟩, ⟨2, ['a'], 0⟩] := by
  decide

/-- Claim C7 (amended).  On every window-list-changed notification both
derived lists are rebuilt wholesale as functions of the freshly advertised
list alone: the z-order list is exactly the advertised list, and the panel
display list is a permutation of it sorted by the windows' stable numeric
identifier (wid) — not by name. -/
theorem window_lists_rebuild (ads : List WindowRec) :
    (rebuildWindowLists ads).1 = ads ∧
    List.Sorted widLe (rebuildWindowLists ads).2 ∧
    List.Perm (rebuildWindowLists ads).2 ads :=
  ⟨rfl, List.sorted_insertionSort widLe ads, List.perm_insertionSort widLe ads⟩

/-- Witness for `window_lists_rebuild` on a concrete advertised list. -/
theorem window_lists_rebuild_spot :
    (rebuildWindowLists [⟨3, ['b'], 0⟩, ⟨1, ['a'], 1⟩]).2 =
      [⟨1, ['a'], 1⟩, ⟨3, ['b'], 0⟩] ∧
    List.Sorted widLe (rebuildWindowLists [⟨3, ['b'], 0⟩, ⟨1, ['a'], 1⟩]).2 :=
  ⟨by decide, (window_lists_rebuild [⟨3, ['b'], 0⟩, ⟨1, ['a'], 1⟩]).2.1⟩

/-! ### Wallpaper animations (WallpaperWindow.animate_new/animate/draw,
panel.py lines 546-563 and 643-687; MSG_TIMER_TICK handler, lines
1045-1055) -/

/-- Wallpaper animation state: current and pending background image
(identified abstractly), the cross-fade start time keyed by the window
itself (`self.animations[self]`), and the icon-bounce start times keyed by
icon index. -/
structure WallpaperAnim where
  background : Nat
  new_background : Nat
  selfAnim : Option ℚ
  iconAnims : List (Nat × ℚ)
deriving DecidableEq

/-- The animation-relevant effect of `WallpaperWindow.draw` at time `t`
(panel.py lines 643-687): when the cross-fade entry exists and at least 1.0s
has elapsed, the pending background is installed and the entry removed;
otherwise the state is unchanged (the blend is merely painted at alpha
`elapsed / 1.0`). -/
def wallpaper_draw (t : ℚ) (st : WallpaperAnim) : WallpaperAnim :=
  match st.selfAnim with
  | some start =>
    if t - start ≥ 1 then
      { st with background := st.new_background, selfAnim := none }
    else st
  | none => st

/-- `WallpaperWindow.animate` (panel.py lines 553-563): draw, then ditch the
icon animations older than 0.5s; the entry keyed by the window itself is
explicitly skipped by the ditch loop. -/
def wallpaper_animate (t : ℚ) (st : WallpaperAnim) : WallpaperAnim :=
  let st' := wallpaper_draw t st
  { st' with
    iconAnims := st'.iconAnims.filter (fun p => !(decide (t - p.2 > 1 / 2))) }

/-- `WallpaperWindow.animate_new` (panel.py lines 546-548): load the pending
background `img` and record the cross-fade start timestamp. -/
def animate_new (t : ℚ) (img : Nat) (st : WallpaperAnim) : WallpaperAnim :=
  { st with new_background := img, selfAnim := some t }

/-- The poll kinds relevant to the animation lifecycle: a timer tick (whose
handler runs `wallpaper.animate()` whenever any animation entry exists,
panel.py lines 1054-1055) and a key event (whose handler never touches the
wallpaper, lines 1056-1092). -/
inductive PollMsg where
  | timerTick
  | keyEvent
deriving DecidableEq

/-- One dispatcher poll at time `t`, restricted to its effect on the
wallpaper animation state. -/
def pollStep (m : PollMsg) (t : ℚ) (st : WallpaperAnim) : WallpaperAnim :=
  match m with
  | .timerTick =>
    if st.selfAnim.isSome = true ∨ st.iconAnims ≠ [] then wallpaper_animate t st
    else st
  | .keyEvent => st

/-- Claim C8, as stated, is false: a message poll that is not a timer tick
does not resolve the cross-fade even at or after `T + 1.0`.  Concretely, a
key-event poll at time 2 with a cross-fade started at time 0 leaves the
animation entry in place and the background unswapped. -/
theorem crossfade_claim_as_stated_fails :
    (WallpaperAnim.mk 0 1 (some 0) []).selfAnim = some 0 ∧
    (2 : ℚ) ≥ 0 + 1 ∧
    (pollStep .keyEvent 2 (WallpaperAnim.mk 0 1 (some 0) [])).selfAnim =
      some 0 ∧
    (pollStep .keyEvent 2 (WallpaperAnim.mk 0 1 (some 0) [])).background = 0 :=
  ⟨rfl, by norm_num, rfl, rfl⟩

/-- Claim C8 (amended).  For a cross-fade started at time `T`: at every
timer-tick poll occurring at or after `T + 1.0` the animation is fully
resolved (the pending background installed as current, the entry removed);
and at every poll (timer tick or key event) occurring before `T + 1.0` the
entry is kept and the current background unchanged. -/
theorem crossfade_lifecycle (st : WallpaperAnim) (T t : ℚ)
    (hanim : st.selfAnim = some T) :
    (t ≥ T + 1 →
      (pollStep .timerTick t st).selfAnim = none ∧
      (pollStep .timerTick t st).background = st.new_background) ∧
    (t < T + 1 →
      ∀ m : PollMsg,
        (pollStep m t st).selfAnim = some T ∧
        (pollStep m t st).background = st.background) := by
  have hcond : st.selfAnim.isSome = true ∨ st.iconAnims ≠ [] := by
    left; rw [hanim]; rfl
  constructor
  · intro ht
    simp only [pollStep, if_pos hcond, wallpaper_animate, wallpaper_draw,
      hanim]
    rw [if_pos (by linarith : t - T ≥ 1)]
    exact ⟨rfl, rfl⟩
  · intro ht m
    cases m with
    | keyEvent => exact ⟨hanim, rfl⟩
    | timerTick =>
      simp only [pollStep, if_pos hcond, wallpaper_animate, wallpaper_draw,
        hanim]
      rw [if_neg (by linarith : ¬(t - T ≥ 1))]
      exact ⟨hanim, rfl⟩

/-- Witness for `crossfade_lifecycle`: a cross-fade started at time 0 is
resolved by a timer tick at time 3 and untouched by one at time 1/2. -/
theorem crossfade_lifecycle_spot :
    ((WallpaperAnim.mk 0 1 (some 0) []).selfAnim = some 0 ∧ (3 : ℚ) ≥ 0 + 1 ∧
      (1 / 2 : ℚ) < 0 + 1) ∧
    ((pollStep .timerTick 3 (WallpaperAnim.mk 0 1 (some 0) [])).selfAnim =
        none ∧
      (pollStep .timerTick 3 (WallpaperAnim.mk 0 1 (some 0) [])).background =
        (WallpaperAnim.mk 0 1 (some 0) []).new_background) ∧
    ((pollStep .timerTick (1 / 2)
        (WallpaperAnim.mk 0 1 (some 0) [])).selfAnim = some 0 ∧
      (pollStep .timerTick (1 / 2)
        (WallpaperAnim.mk 0 1 (some 0) [])).background =
        (WallpaperAnim.mk 0 1 (some 0) []).background) :=
  ⟨⟨rfl, by norm_num, by norm_num⟩,
    (crossfade_lifecycle (WallpaperAnim.mk 0 1 (some 0) []) 0 3 rfl).1
      (by norm_num),
    (crossfade_lifecycle (WallpaperAnim.mk 0 1 (some 0) []) 0 (1 / 2) rfl).2
      (by norm_num) .timerTick⟩

/-! ### Keyboard dispatch modality (MSG_KEY_EVENT handler, panel.py lines
1056-1092) -/

/-- The modifier bits the handler consumes (the external bitmask is modelled
at the interface boundary by the three tested bits). -/
structure Modifiers where
  leftAlt : Bool
  leftShift : Bool
  leftCtrl : Bool
deriving DecidableEq

/-- Key action: key-down or key-up. -/
inductive KAct where
  | down
  | up
deriving DecidableEq

/-- The keycodes the handler compares against (distinct external constants,
modelled as distinct constructors). -/
inductive KCode where
  | f1
  | f2
  | f11
  | tab
  | tKey
  | leftAlt
  | zero
  | other
deriving DecidableEq

/-- A keyboard message: destination window id, modifiers, keycode and
action. -/
structure KeyMsg where
  wid : Nat
  modifiers : Modifiers
  keycode : KCode
  action : KAct
deriving DecidableEq

/-- The dispatcher state consulted by the MSG_KEY_EVENT handler: the
application-runner overlay (its wid when open), the wids of the open panel
menus, and the alt-tab `tabbing` flag. -/
structure DispatchState where
  app_runner : Option Nat
  panelMenus : List Nat
  tabbing : Bool
deriving DecidableEq

/-- The handlers and keybinding actions the MSG_KEY_EVENT handler can
fire. -/
inductive Handler where
  | runnerKey
  | createRunner
  | activateMenu
  | launchTerminal
  | togglePanel
  | finishAltTab
  | altTabStep
  | menuKeyboard
deriving DecidableEq

/-- `msg.event.modifiers == 0` restricted to the modelled bits. -/
def noMods (m : Modifiers) : Bool := !m.leftAlt && !m.leftShift && !m.leftCtrl

/-- The keybinding checks of the MSG_KEY_EVENT handler (panel.py lines
1060-1092), in source order, as the list of actions fired. -/
def keyBindActions (st : DispatchState) (msg : KeyMsg) : List Handler :=
  (if st.app_runner = none ∧ msg.modifiers.leftAlt = true ∧
      msg.keycode = KCode.f2 ∧ msg.action = KAct.down
    then [Handler.createRunner] else [])
  ++ (if st.panelMenus = [] ∧ msg.modifiers.leftAlt = true ∧
        msg.keycode = KCode.f1 ∧ msg.action = KAct.down
      then [Handler.activateMenu] else [])
  ++ (if msg.modifiers.leftCtrl = true ∧ msg.modifiers.leftAlt = true ∧
        msg.keycode = KCode.tKey ∧ msg.action = KAct.down
      then [Handler.launchTerminal] else [])
  ++ (if msg.modifiers.leftCtrl = true ∧ msg.keycode = KCode.f11 ∧
        msg.action = KAct.down
      then [Handler.togglePanel] else [])
  ++ (if st.tabbing = true ∧
        (msg.keycode = KCode.zero ∨ msg.keycode = KCode.leftAlt) ∧
        noMods msg.modifiers = true ∧ msg.action = KAct.up
      then [Handler.finishAltTab] else [])
  ++ (if msg.modifiers.leftAlt = true ∧ msg.keycode = KCode.tab ∧
        msg.action = KAct.down
      then [Handler.altTabStep] else [])
  ++ (if msg.wid ∈ st.panelMenus then [Handler.menuKeyboard] else [])

/-- The MSG_KEY_EVENT handler (panel.py lines 1056-1092): when the runner
overlay is open and the message is addressed to its window, the message goes
to the overlay's key handler and the handler `continue`s; otherwise the
keybinding checks run in order. -/
def keyDispatch (st : DispatchState) (msg : KeyMsg) : List Handler :=
  match st.app_runner with
  | some w => if msg.wid = w then [Handler.runnerKey] else keyBindActions st msg
  | none => keyBindActions st msg

/-- Claim C9, as stated, is false: with the runner overlay open (wid 5), a
keyboard message addressed to a different window id (7) carrying Alt+F1
key-down fires the applications-menu activation, not the overlay's key
handler — routing is by window id, not by modal state. -/
theorem modal_claim_as_stated_fails :
    (DispatchState.mk (some 5) [] false).app_runner = some 5 ∧
    keyDispatch (DispatchState.mk (some 5) [] false)
        (KeyMsg.mk 7 (Modifiers.mk true false false) KCode.f1 KAct.down) =
      [Handler.activateMenu] ∧
    keyDispatch (DispatchState.mk (some 5) [] false)
        (KeyMsg.mk 7 (Modifiers.mk true false false) KCode.f1 KAct.down) ≠
      [Handler.runnerKey] := by
  decide

/-- Claim C9 (amended).  While the application-runner overlay is open, every
keyboard message addressed to the overlay's window routes exclusively to the
overlay's key handler: no other handler, keybinding action, or controller
fires. -/
theorem modal_routing (st : DispatchState) (msg : KeyMsg) (w : Nat)
    (hopen : st.app_runner = some w) (hwid : msg.wid = w) :
    keyDispatch st msg = [Handler.runnerKey] := by
  simp only [keyDispatch, hopen, hwid, if_pos]

/-- Witness for `modal_routing`: the runner overlay is open as window 5 and
a message addressed to window 5 routes only to it. -/
theorem modal_routing_spot :
    (DispatchState.mk (some 5) [] false).app_runner = some 5 ∧
    (KeyMsg.mk 5 (Modifiers.mk true false false) KCode.f1 KAct.down).wid = 5 ∧
    keyDispatch (DispatchState.mk (some 5) [] false)
        (KeyMsg.mk 5 (Modifiers.mk true false false) KCode.f1 KAct.down) =
      [Handler.runnerKey] :=
  ⟨rfl, rfl,
    modal_routing (DispatchState.mk (some 5) [] false)
      (KeyMsg.mk 5 (Modifiers.mk true false false) KCode.f1 KAct.down) 5 rfl
      rfl⟩

end PanelShell
